import Mathlib

/-!
Verification of the retrieval core of the `lib-ai` library Q&A service.

The Python source is shallowly embedded in Lean:

* strings are `List Char`; Python's `str.lower` is modelled for the ASCII
  range (all category names and keywords in the repository are ASCII);
* a float that may be NaN is `Option ℝ` (`none` models NaN, `some r` a
  finite value); `np.nan_to_num(x, nan=0.0)` becomes `nanToNum`;
* chunk dictionaries become the `Chunk` structure; keys that the code reads
  with `.get(key, default)` are `Option`-valued fields, the default being
  applied at each use site, exactly as in the source;
* the store's on-disk state (`chunks.json` / `embeddings.npy`) becomes the
  `Disk` structure; real file I/O and logging are outside the model;
* the in-memory search cache of `FixedVectorStore` is pure memoisation of
  `similarity_search` and is omitted;
* exact real arithmetic stands in for numpy float32 arithmetic, so
  float-precision claims are read as exact equalities.
-/

namespace LibAI

/-- Python strings are modelled as lists of characters. -/
abbrev Str := List Char

/-- A float value that may be NaN: `none` is NaN, `some r` a finite value. -/
abbrev Scalar := Option ℝ

/-- A stored vector (one row of the numpy matrix). -/
abbrev Vec := List Scalar

/-- Model of `np.nan_to_num(x, nan=0.0)` on one entry: NaN becomes `0.0`,
finite values are unchanged. -/
def nanToNum (x : Scalar) : Scalar := some (x.getD 0)

/-- Entry-wise NaN cleaning of a vector. -/
def cleanVec (v : Vec) : Vec := v.map nanToNum

/-- Entry-wise NaN cleaning of a matrix (`np.nan_to_num` on a 2-D array). -/
def cleanMat (m : List Vec) : List Vec := m.map cleanVec

/-- The metadata dictionary of a chunk.  Each field models one key the code
reads; `none` means the key is absent from the dictionary. -/
structure Metadata where
  source : Option Str
  sectionTitle : Option Str
  content_type : Option Str
  chunk_type : Option Str
  chunk_id : Option Str
  page : Option Nat
deriving DecidableEq

/-- A chunk record as stored by `FixedVectorStore` (a dict with keys
`text`, `metadata` and, for ingestor-produced chunks, `importance`). -/
structure Chunk where
  text : Str
  metadata : Metadata
  importance : Option ℚ
deriving DecidableEq

/-- In-memory state of `FixedVectorStore`: the chunk list, the optional
embedding matrix (`None` before any vectors exist) and the `loaded` flag. -/
structure Store where
  chunks : List Chunk
  embeddings : Option (List Vec)
  loaded : Bool

/-- A freshly constructed `FixedVectorStore()`. -/
def emptyStore : Store := { chunks := [], embeddings := none, loaded := false }

/-- Model of `FixedVectorStore.add_chunks(chunks, embeddings=None)`:
`self.chunks.extend(chunks)`; when vectors are given they are NaN-cleaned and
either become the matrix or are `np.vstack`-ed under it; `loaded` is set.
The source performs no length comparison between `chunks` and `embeddings`. -/
def add_chunks (s : Store) (cs : List Chunk) (embs : Option (List Vec)) : Store :=
  match embs with
  | none => { chunks := s.chunks ++ cs, embeddings := s.embeddings, loaded := true }
  | some m =>
    match s.embeddings with
    | none => { chunks := s.chunks ++ cs, embeddings := some (cleanMat m), loaded := true }
    | some e => { chunks := s.chunks ++ cs, embeddings := some (e ++ cleanMat m), loaded := true }

/-- Number of rows of the stored embedding matrix (`embeddings.shape[0]`,
read as 0 when no matrix exists). -/
def storeRows (s : Store) : Nat :=
  match s.embeddings with
  | none => 0
  | some m => m.length

/-- The chunk/vector alignment invariant of the spec. -/
def aligned (s : Store) : Prop := s.chunks.length = storeRows s

/-- A sequence of `add_chunks` calls that all supply vectors. -/
def applyAdds (s : Store) (calls : List (List Chunk × List Vec)) : Store :=
  calls.foldl (fun t p => add_chunks t p.1 (some p.2)) s

/-- A sample chunk used for concrete instances. -/
def cSample : Chunk :=
  { text := "sample chunk text".toList
    metadata :=
      { source := some "doc.pdf".toList, sectionTitle := none, content_type := none
        chunk_type := none, chunk_id := none, page := none }
    importance := none }

theorem length_cleanMat (m : List Vec) : (cleanMat m).length = m.length := by
  simp [cleanMat]

/-- C1 counterexample: the claim says a call with `len(chunks) ≠ len(vectors)`
must raise and leave the store unchanged.  The concrete mismatched call
(2 chunks, 1 vector row) instead completes, extends the chunk list to 2,
stores 1 row, and changes the store. -/
theorem add_mismatch_not_rejected :
    (add_chunks emptyStore [cSample, cSample] (some [[some (1 : ℝ)]])).chunks.length = 2 ∧
    storeRows (add_chunks emptyStore [cSample, cSample] (some [[some (1 : ℝ)]])) = 1 ∧
    add_chunks emptyStore [cSample, cSample] (some [[some (1 : ℝ)]]) ≠ emptyStore := by
  refine ⟨rfl, rfl, fun h => ?_⟩
  have hl := congrArg Store.loaded h
  simp [add_chunks, emptyStore] at hl

/-- C1 (amended): `add_chunks` performs no chunk/vector count check: a call
with `len(chunks) ≠ len(vectors)` succeeds, appends all chunks and all vector
rows independently, and breaks alignment whenever it held before. -/
theorem add_chunks_no_count_check (s : Store) (cs : List Chunk) (m : List Vec)
    (hmis : cs.length ≠ m.length) :
    (add_chunks s cs (some m)).chunks.length = s.chunks.length + cs.length ∧
    storeRows (add_chunks s cs (some m)) = storeRows s + m.length ∧
    (aligned s → ¬ aligned (add_chunks s cs (some m))) := by
  have hrows : storeRows (add_chunks s cs (some m)) = storeRows s + m.length := by
    cases he : s.embeddings with
    | none => simp [add_chunks, storeRows, he, length_cleanMat]
    | some e => simp [add_chunks, storeRows, he, length_cleanMat]
  have hchunks : (add_chunks s cs (some m)).chunks.length = s.chunks.length + cs.length := by
    cases he : s.embeddings with
    | none => simp [add_chunks, he]
    | some e => simp [add_chunks, he]
  refine ⟨hchunks, hrows, fun hal hal' => ?_⟩
  have h1 : s.chunks.length = storeRows s := hal
  have h2 : (add_chunks s cs (some m)).chunks.length = storeRows (add_chunks s cs (some m)) := hal'
  rw [hchunks, hrows] at h2
  omega

/-- Witness for `add_chunks_no_count_check` at a concrete mismatched call. -/
theorem add_chunks_no_count_check_w :
    (add_chunks emptyStore [cSample] (some [[some (1 : ℝ)], [some (2 : ℝ)]])).chunks.length =
        emptyStore.chunks.length + 1 ∧
    storeRows (add_chunks emptyStore [cSample] (some [[some (1 : ℝ)], [some (2 : ℝ)]])) =
        storeRows emptyStore + 2 ∧
    (aligned emptyStore →
      ¬ aligned (add_chunks emptyStore [cSample] (some [[some (1 : ℝ)], [some (2 : ℝ)]]))) :=
  add_chunks_no_count_check emptyStore [cSample] [[some 1], [some 2]] (by decide)

/-- C2 counterexample: the alignment invariant does not survive every
sequence of `add()` calls: a single `add_chunks` with the default
`embeddings=None` extends the chunk list but adds no matrix row. -/
theorem add_without_vectors_breaks_alignment :
    ¬ aligned (add_chunks emptyStore [cSample] none) := by
  simp [aligned, add_chunks, emptyStore, storeRows]

theorem applyAdds_aligned_of_matched (calls : List (List Chunk × List Vec)) :
    ∀ s : Store, aligned s → (∀ p ∈ calls, p.1.length = p.2.length) →
      aligned (applyAdds s calls) := by
  induction calls with
  | nil => intro s hs _; simpa [applyAdds] using hs
  | cons p rest ih =>
    intro s hs h
    have hstep : aligned (add_chunks s p.1 (some p.2)) := by
      have hp : p.1.length = p.2.length := h p (List.mem_cons_self p rest)
      cases he : s.embeddings with
      | none =>
        have : s.chunks.length = 0 := by simpa [aligned, storeRows, he] using hs
        simp [aligned, add_chunks, storeRows, he, length_cleanMat, this, hp]
      | some e =>
        have : s.chunks.length = e.length := by simpa [aligned, storeRows, he] using hs
        simp [aligned, add_chunks, storeRows, he, length_cleanMat, this, hp]
    have hrest : ∀ q ∈ rest, q.1.length = q.2.length := fun q hq =>
      h q (List.mem_cons_of_mem p hq)
    simpa [applyAdds] using ih (add_chunks s p.1 (some p.2)) hstep hrest

/-- C2 (amended): for every sequence of `add()` calls in which each call
supplies a vector matrix with exactly as many rows as chunks, the alignment
invariant `len(store.chunks) = rows(store.embeddings)` holds after every
prefix of the sequence, starting from a fresh store. -/
theorem alignment_invariant_matched_adds (calls : List (List Chunk × List Vec))
    (h : ∀ p ∈ calls, p.1.length = p.2.length) (n : Nat) :
    aligned (applyAdds emptyStore (calls.take n)) := by
  refine applyAdds_aligned_of_matched (calls.take n) emptyStore rfl ?_
  intro p hp
  exact h p (List.take_subset n calls hp)

/-- Witness for `alignment_invariant_matched_adds` on a concrete two-call
sequence. -/
theorem alignment_invariant_matched_adds_w :
    aligned (applyAdds emptyStore
      (([([cSample], [[some (1 : ℝ)]]), ([cSample, cSample], [[some (2 : ℝ)], [none]])]).take 2)) :=
  alignment_invariant_matched_adds _ (by decide) 2

/-! ## The fallback Embedder

`SimpleLLMClient.get_embeddings` and `FixedVectorStore._create_simple_embeddings`
contain the same hash-projection kernel: SHA-256 hex digest of the text, 384
components `(ord(digest[i % len(digest)]) / 255.0) - 0.5`, then division by the
L2 norm when it is positive.  The digest computation lives in Python's
`hashlib`, outside this repository, so it is abstracted as a function
parameter `digestFn`; SHA-256's relevant properties (length 64, lowercase hex
alphabet) appear as hypotheses where needed. -/

/-- Sum of squares of a list of reals (`np.linalg.norm` is its square root). -/
noncomputable def sumSq (l : List ℝ) : ℝ := (l.map fun x => x * x).sum

@[simp] theorem sumSq_nil : sumSq [] = 0 := by simp [sumSq]

@[simp] theorem sumSq_cons (a : ℝ) (l : List ℝ) : sumSq (a :: l) = a * a + sumSq l := by
  simp [sumSq]

theorem sumSq_nonneg (l : List ℝ) : 0 ≤ sumSq l := by
  induction l with
  | nil => simp
  | cons a l ih => simpa using add_nonneg (mul_self_nonneg a) ih

/-- The pre-normalisation vector of the hash embedder:
component `i` is `(ord(digest[i % len(digest)]) / 255.0) - 0.5`. -/
noncomputable def hashPre (h : Str) : List ℝ :=
  (List.range 384).map fun i => ((h.getD (i % h.length) '0').toNat : ℝ) / 255 - 0.5

/-- The hash embedding kernel shared verbatim by `SimpleLLMClient.get_embeddings`
and `FixedVectorStore._create_simple_embeddings`: build `hashPre`, then divide
by the L2 norm when `norm > 0`. -/
noncomputable def embedFromHash (h : Str) : List ℝ :=
  let emb := hashPre h
  let n := Real.sqrt (sumSq emb)
  if 0 < n then emb.map fun x => x / n else emb

/-- Model of `SimpleLLMClient.get_embeddings` on a single text:
hex digest of the text, then the hash embedding kernel. -/
noncomputable def get_embedding (digestFn : Str → Str) (t : Str) : List ℝ :=
  embedFromHash (digestFn t)

/-- Modelled from the spec (the C3 reference algorithm, §4.2): for `i` in
`[0, 384)` take the digest character at `i mod len(digest)` and map its code
point to `(code/255.0) - 0.5`; L2-normalize unless the norm is 0, in which
case the vector is left undivided. -/
noncomputable def embedSpec (digestFn : Str → Str) (t : Str) : List ℝ :=
  let d := digestFn t
  let v := (List.range 384).map fun i => ((d.getD (i % d.length) '0').toNat : ℝ) / 255 - 1 / 2
  if Real.sqrt (sumSq v) = 0 then v else v.map fun x => x / Real.sqrt (sumSq v)

/-- C3: the fallback Embedder computes exactly the spec's reference algorithm,
and (being a pure function of the text) returns the identical vector on every
call with the same string. -/
theorem get_embedding_matches_spec (digestFn : Str → Str) (t : Str) :
    get_embedding digestFn t = embedSpec digestFn t ∧
    ∀ t' : Str, t' = t → get_embedding digestFn t' = get_embedding digestFn t := by
  refine ⟨?_, fun t' ht => by rw [ht]⟩
  have hpre : ((List.range 384).map
      fun i => (((digestFn t).getD (i % (digestFn t).length) '0').toNat : ℝ) / 255 - 1 / 2) =
      hashPre (digestFn t) := by
    unfold hashPre
    refine List.map_congr_left fun i _ => by norm_num
  unfold get_embedding embedFromHash embedSpec
  simp only [hpre]
  rcases (Real.sqrt_nonneg (sumSq (hashPre (digestFn t)))).eq_or_lt with h0 | hpos
  · rw [if_neg (by rw [← h0]; exact lt_irrefl 0), if_pos h0.symm]
  · rw [if_pos hpos, if_neg (ne_of_gt hpos)]

/-- Code points that occur in a lowercase hex digest: digits `0`-`9` or
letters `a`-`f`. -/
def isHexLowerCode (n : Nat) : Prop := (48 ≤ n ∧ n ≤ 57) ∨ (97 ≤ n ∧ n ≤ 102)

instance (n : Nat) : Decidable (isHexLowerCode n) := by
  unfold isHexLowerCode; infer_instance

theorem sumSq_map_div (l : List ℝ) (c : ℝ) (hc : c ≠ 0) :
    sumSq (l.map fun x => x / c) = sumSq l / c ^ 2 := by
  induction l with
  | nil => simp
  | cons a l ih =>
    simp only [List.map_cons, sumSq_cons, ih]
    field_simp
    ring

/-- C10: whenever the digest is a 64-character lowercase hex string (as every
SHA-256 hex digest is), every pre-normalisation component is strictly
negative, so the norm is strictly positive, the `norm > 0` branch is taken,
and the returned vector is exactly L2-normalised. -/
theorem embedder_norm_positive (digestFn : Str → Str) (t : Str)
    (hlen : (digestFn t).length = 64)
    (hhex : ∀ c ∈ digestFn t, isHexLowerCode c.toNat) :
    (∀ x ∈ hashPre (digestFn t), x < 0) ∧
    0 < Real.sqrt (sumSq (hashPre (digestFn t))) ∧
    get_embedding digestFn t =
      (hashPre (digestFn t)).map (fun x => x / Real.sqrt (sumSq (hashPre (digestFn t)))) ∧
    sumSq (get_embedding digestFn t) = 1 ∧
    Real.sqrt (sumSq (get_embedding digestFn t)) = 1 := by
  have hneg : ∀ x ∈ hashPre (digestFn t), x < 0 := by
    intro x hx
    unfold hashPre at hx
    rcases List.mem_map.mp hx with ⟨i, _, rfl⟩
    have hlt : i % (digestFn t).length < (digestFn t).length := by
      rw [hlen]; exact Nat.mod_lt _ (by norm_num)
    have hmem : (digestFn t).getD (i % (digestFn t).length) '0' ∈ digestFn t := by
      rw [List.getD_eq_getElem _ _ hlt]
      exact List.getElem_mem _
    have hcode : (((digestFn t).getD (i % (digestFn t).length) '0').toNat : ℝ) ≤ 102 := by
      rcases hhex _ hmem with ⟨_, h2⟩ | ⟨_, h2⟩ <;> exact_mod_cast h2.trans (by norm_num)
    have : (((digestFn t).getD (i % (digestFn t).length) '0').toNat : ℝ) / 255 ≤ 102 / 255 := by
      gcongr
    linarith [this]
  have hS : 0 < sumSq (hashPre (digestFn t)) := by
    have hne : hashPre (digestFn t) ≠ [] := by
      unfold hashPre
      simp
    have : ∀ y ∈ (hashPre (digestFn t)).map (fun x => x * x), 0 < y := by
      intro y hy
      rcases List.mem_map.mp hy with ⟨x, hx, rfl⟩
      exact mul_pos_of_neg_of_neg (hneg x hx) (hneg x hx)
    exact List.sum_pos _ this (by simpa using hne)
  have hn : 0 < Real.sqrt (sumSq (hashPre (digestFn t))) := Real.sqrt_pos.mpr hS
  have hbr : get_embedding digestFn t =
      (hashPre (digestFn t)).map (fun x => x / Real.sqrt (sumSq (hashPre (digestFn t)))) := by
    unfold get_embedding embedFromHash
    simp only [if_pos hn]
  have hunit : sumSq (get_embedding digestFn t) = 1 := by
    rw [hbr, sumSq_map_div _ _ (ne_of_gt hn), Real.sq_sqrt (le_of_lt hS)]
    exact div_self (ne_of_gt hS)
  refine ⟨hneg, hn, hbr, hunit, ?_⟩
  rw [hunit, Real.sqrt_one]

/-- A stand-in digest function used by concrete witnesses. -/
def digestW : Str → Str := fun _ => List.replicate 64 'a'

/-- Witness for `embedder_norm_positive` at a concrete digest. -/
theorem embedder_norm_positive_w :
    (∀ x ∈ hashPre (digestW []), x < 0) ∧
    0 < Real.sqrt (sumSq (hashPre (digestW []))) ∧
    get_embedding digestW [] =
      (hashPre (digestW [])).map (fun x => x / Real.sqrt (sumSq (hashPre (digestW [])))) ∧
    sumSq (get_embedding digestW []) = 1 ∧
    Real.sqrt (sumSq (get_embedding digestW [])) = 1 :=
  embedder_norm_positive digestW [] (by decide) (by decide)

/-- Witness for `get_embedding_matches_spec` at a concrete digest function. -/
theorem get_embedding_matches_spec_w :
    get_embedding digestW [] = embedSpec digestW [] ∧
    ∀ t' : Str, t' = [] → get_embedding digestW t' = get_embedding digestW [] :=
  get_embedding_matches_spec digestW []

/-! ## Persistence: save / load -/

/-- On-disk state of the store directory: the contents of `chunks.json`
(its `"chunks"` list) and of `embeddings.npy`, each possibly absent. -/
structure Disk where
  chunksFile : Option (List Chunk)
  embFile : Option (List Vec)

/-- A directory with neither artifact. -/
def emptyDisk : Disk := { chunksFile := none, embFile := none }

/-- Model of `FixedVectorStore.save()`: always writes the chunk list; writes
the NaN-cleaned matrix only when one exists (otherwise the previous
`embeddings.npy`, if any, is left in place). -/
def save (s : Store) (d : Disk) : Disk :=
  { chunksFile := some s.chunks
    embFile :=
      match s.embeddings with
      | none => d.embFile
      | some m => some (cleanMat m) }

/-- Model of `FixedVectorStore._create_simple_embeddings`: one hash embedding
per chunk text, all entries finite. -/
noncomputable def createSimpleEmbeddings (digestFn : Str → Str) (cs : List Chunk) : List Vec :=
  cs.map fun c => (embedFromHash (digestFn c.text)).map some

/-- Model of `FixedVectorStore.load()` running on store `s` over disk `d`:
if `chunks.json` is missing the store is reset empty with `loaded = False`;
otherwise the chunk list is read, `loaded` is `len(chunks) > 0`, the matrix
is read and NaN-cleaned when `embeddings.npy` exists (else the in-memory
matrix is kept), and when `loaded` holds but no matrix exists, vectors are
regenerated from the chunk texts with the fallback embedder. -/
noncomputable def load (digestFn : Str → Str) (d : Disk) (s : Store) : Store :=
  match d.chunksFile with
  | none => { chunks := [], embeddings := none, loaded := false }
  | some data =>
    let loadedFlag := decide (0 < data.length)
    let emb : Option (List Vec) :=
      match d.embFile with
      | some m => some (cleanMat m)
      | none => s.embeddings
    match emb with
    | none =>
      if loadedFlag then
        { chunks := data, embeddings := some (createSimpleEmbeddings digestFn data)
          loaded := loadedFlag }
      else
        { chunks := data, embeddings := none, loaded := loadedFlag }
    | some m => { chunks := data, embeddings := some m, loaded := loadedFlag }

theorem cleanVec_eq_self (v : Vec) (h : ∀ x ∈ v, x.isSome = true) : cleanVec v = v := by
  induction v with
  | nil => rfl
  | cons a v ih =>
    have ha : a.isSome = true := h a (List.mem_cons_self a v)
    have ha' : nanToNum a = a := by
      cases a with
      | none => simp at ha
      | some q => rfl
    simp only [cleanVec, List.map_cons] at *
    rw [ha', ih fun x hx => h x (List.mem_cons_of_mem a hx)]

theorem cleanMat_eq_self (m : List Vec) (h : ∀ v ∈ m, ∀ x ∈ v, x.isSome = true) :
    cleanMat m = m := by
  induction m with
  | nil => rfl
  | cons v m ih =>
    simp only [cleanMat, List.map_cons] at *
    rw [cleanVec_eq_self v (h v (List.mem_cons_self v m)),
      ih fun w hw => h w (List.mem_cons_of_mem v hw)]

/-- C4: the save/load round trip.  Adding NaN-free vectors with their chunks,
saving, and loading into a fresh store over the same directory restores the
chunk list verbatim and the vector matrix exactly. -/
theorem save_load_round_trip (digestFn : Str → Str) (cs : List Chunk) (m : List Vec)
    (hfin : ∀ v ∈ m, ∀ x ∈ v, x.isSome = true) :
    (load digestFn (save (add_chunks emptyStore cs (some m)) emptyDisk) emptyStore).chunks = cs ∧
    (load digestFn (save (add_chunks emptyStore cs (some m)) emptyDisk) emptyStore).embeddings =
      some m := by
  have hclean : cleanMat m = m := cleanMat_eq_self m hfin
  simp [add_chunks, emptyStore, save, emptyDisk, load, hclean]

/-- Witness for `save_load_round_trip` at a concrete one-chunk store. -/
theorem save_load_round_trip_w :
    (load digestW (save (add_chunks emptyStore [cSample] (some [[some (1 : ℝ)]])) emptyDisk)
        emptyStore).chunks = [cSample] ∧
    (load digestW (save (add_chunks emptyStore [cSample] (some [[some (1 : ℝ)]])) emptyDisk)
        emptyStore).embeddings = some [[some (1 : ℝ)]] :=
  save_load_round_trip digestW [cSample] [[some 1]]
    (by intro v hv x hx; simp at hv; subst hv; simp at hx; subst hx; rfl)

/-! ## Sorting infrastructure

Python's `list.sort(key=..., reverse=True)` is a stable descending sort by a
key.  It is modelled by `List.insertionSort` with the relation
`keyGE key a b := key b ≤ key a`: `orderedInsert` places an element before the
first later element whose key is `≤` its own, so earlier elements stay before
equal-keyed later ones — exactly CPython's stable order under `reverse=True`. -/

/-- Descending comparison by key, ties allowed. -/
def keyGE {α β : Type} [LinearOrder β] (key : α → β) (a b : α) : Prop := key b ≤ key a

instance keyGE_dec {α β : Type} [LinearOrder β] (key : α → β) : DecidableRel (keyGE key) :=
  fun a b => inferInstanceAs (Decidable (key b ≤ key a))

instance keyGE_total {α β : Type} [LinearOrder β] (key : α → β) : IsTotal α (keyGE key) :=
  ⟨fun a b => le_total (key b) (key a)⟩

instance keyGE_trans {α β : Type} [LinearOrder β] (key : α → β) : IsTrans α (keyGE key) :=
  ⟨fun _ _ _ hab hbc => le_trans hbc hab⟩

theorem filter_key_orderedInsert {α β : Type} [LinearOrder β] [DecidableEq β] (key : α → β)
    (v : β) (a : α) (l : List α) :
    (List.orderedInsert (keyGE key) a l).filter (fun x => decide (key x = v)) =
      if key a = v then a :: l.filter (fun x => decide (key x = v))
      else l.filter (fun x => decide (key x = v)) := by
  induction l with
  | nil => by_cases hav : key a = v <;> simp [List.orderedInsert, hav]
  | cons b l ih =>
    by_cases hab : keyGE key a b
    · rw [List.orderedInsert, if_pos hab]
      by_cases hav : key a = v <;> simp [List.filter_cons, hav]
    · rw [List.orderedInsert, if_neg hab]
      have hba : key a < key b := lt_of_not_le hab
      by_cases hbv : key b = v
      · have hav : ¬ key a = v := fun h => absurd (hbv.trans h.symm) (ne_of_gt hba)
        simp [List.filter_cons, hbv, ih, hav]
      · by_cases hav : key a = v <;> simp [List.filter_cons, hbv, ih, hav]

theorem filter_key_insertionSort {α β : Type} [LinearOrder β] [DecidableEq β] (key : α → β)
    (v : β) (l : List α) :
    (List.insertionSort (keyGE key) l).filter (fun x => decide (key x = v)) =
      l.filter (fun x => decide (key x = v)) := by
  induction l with
  | nil => rfl
  | cons a l ih =>
    rw [List.insertionSort, filter_key_orderedInsert, ih]
    by_cases hav : key a = v <;> simp [List.filter_cons, hav]

theorem pairwise_take_drop {α : Type} {r : α → α → Prop} {l : List α} (h : l.Pairwise r)
    (m : Nat) : ∀ x ∈ l.take m, ∀ y ∈ l.drop m, r x y := by
  have hl : l.take m ++ l.drop m = l := List.take_append_drop m l
  rw [← hl] at h
  exact (List.pairwise_append.mp h).2.2

/-! ## Keyword search -/

/-- ASCII model of Python's `str.lower()`. -/
def lowerStr (s : Str) : Str := s.map Char.toLower

/-- Python's substring test `pat in s`. -/
def isSubstr (pat : Str) : Str → Bool
  | [] => pat.isPrefixOf []
  | c :: rest => pat.isPrefixOf (c :: rest) || isSubstr pat rest

/-- Scanning loop of Python's `str.count` for a non-empty pattern:
non-overlapping occurrences, scanning left to right.  The first argument is
fuel (one unit per character of the scanned string), which keeps the
recursion structural. -/
def countOccFuel (pat : Str) : Nat → Str → Nat
  | 0, _ => 0
  | _ + 1, [] => 0
  | f + 1, c :: rest =>
    if pat.isPrefixOf (c :: rest) then 1 + countOccFuel pat f (rest.drop (pat.length - 1))
    else countOccFuel pat f rest

/-- Scanning loop of Python's `str.count` for a non-empty pattern. -/
def countOccAux (pat s : Str) : Nat := countOccFuel pat s.length s

/-- Python's `s.count(pat)` (an empty pattern counts `len(s) + 1` times). -/
def countOcc (pat s : Str) : Nat :=
  if pat = [] then s.length + 1 else countOccAux pat s

theorem countOccFuel_eq_zero_of_not_substr (pat : Str) (f : Nat) (s : Str)
    (h : isSubstr pat s = false) : countOccFuel pat f s = 0 := by
  induction f generalizing s with
  | zero => rw [countOccFuel]
  | succ f ih =>
    cases s with
    | nil => rw [countOccFuel]
    | cons c rest =>
      rw [isSubstr, Bool.or_eq_false_iff] at h
      rw [countOccFuel, if_neg (by simp [h.1]), ih rest h.2]

theorem countOcc_eq_zero_of_not_substr (pat : Str) (s : Str)
    (h : isSubstr pat s = false) : countOcc pat s = 0 := by
  have hne : pat ≠ [] := by
    intro he
    subst he
    cases s with
    | nil => simp [isSubstr, List.isPrefixOf] at h
    | cons c rest => simp [isSubstr, List.isPrefixOf] at h
  rw [countOcc, if_neg hne]
  exact countOccFuel_eq_zero_of_not_substr pat s.length s h

/-- Model of the per-chunk score of `FixedVectorStore.search_by_keyword`:
`+count*3` when the lowercased term occurs in the lowercased text, `+2` when
it occurs in the lowercased `source` metadata (absent key reads as `""`). -/
def keywordScore (kw : Str) (c : Chunk) : Nat :=
  (if isSubstr (lowerStr kw) (lowerStr c.text)
    then countOcc (lowerStr kw) (lowerStr c.text) * 3 else 0) +
  (if isSubstr (lowerStr kw) (lowerStr (c.metadata.source.getD [])) then 2 else 0)

/-- Model of `FixedVectorStore.search_by_keyword`: score each chunk in order,
keep strictly positive scores, stable-sort descending by score
(`list.sort(key=score, reverse=True)`), return the first `k` chunks. -/
def search_by_keyword (s : Store) (kw : Str) (k : Nat) : List Chunk :=
  if s.loaded = false then []
  else
    ((List.insertionSort (keyGE Prod.fst)
      ((s.chunks.map fun c => (keywordScore kw c, c)).filter
        fun p => decide (0 < p.1))).take k).map Prod.snd

/-- Modelled from the claim sentence of C6, read literally (case-sensitive):
3 times the number of occurrences of the term as a substring of the chunk's
text, plus a flat 2 when the term appears in its `source` metadata. -/
def keywordScoreClaim (kw : Str) (c : Chunk) : Nat :=
  3 * countOcc kw c.text + (if isSubstr kw (c.metadata.source.getD []) then 2 else 0)

/-- A chunk whose text differs from its lowercase form. -/
def cApple : Chunk :=
  { text := "Apple".toList
    metadata :=
      { source := none, sectionTitle := none, content_type := none
        chunk_type := none, chunk_id := none, page := none }
    importance := none }

/-- A loaded store holding only `cApple`. -/
def storeApple : Store := { chunks := [cApple], embeddings := none, loaded := true }

/-- C6 counterexample: under the claim's literal (case-sensitive) scoring the
term `"apple"` scores 0 against the chunk `"Apple"`, so the claim predicts the
chunk is excluded entirely; the code lowercases both sides and returns it. -/
theorem keyword_search_case_cex :
    keywordScoreClaim "apple".toList cApple = 0 ∧
    search_by_keyword storeApple "apple".toList 5 = [cApple] := by
  constructor
  · decide
  · decide

/-- C6 (amended): `search_by_keyword` scores each chunk as 3 times the number
of (non-overlapping) occurrences of the lowercased term in the lowercased
text plus a flat 2 when the lowercased term occurs in the lowercased `source`
metadata; it returns the first `k` elements of the stable descending sort of
the positively-scored chunks (ties keep insertion order), and zero-score
chunks are excluded entirely — a term occurring nowhere yields `[]`. -/
theorem keyword_search_amended (s : Store) (kw : Str) (k : Nat) (hl : s.loaded = true) :
    (∀ c : Chunk, keywordScore kw c =
        3 * countOcc (lowerStr kw) (lowerStr c.text) +
          (if isSubstr (lowerStr kw) (lowerStr (c.metadata.source.getD [])) then 2 else 0)) ∧
    (∃ L : List (Nat × Chunk),
      search_by_keyword s kw k = (L.take k).map Prod.snd ∧
      L.Perm ((s.chunks.map fun c => (keywordScore kw c, c)).filter fun p => decide (0 < p.1)) ∧
      (L.map Prod.fst).Chain' (· ≥ ·) ∧
      (∀ v : Nat, L.filter (fun p => decide (p.1 = v)) =
        ((s.chunks.map fun c => (keywordScore kw c, c)).filter fun p => decide (0 < p.1)).filter
          fun p => decide (p.1 = v))) ∧
    ((∀ c ∈ s.chunks, keywordScore kw c = 0) → search_by_keyword s kw k = []) := by
  refine ⟨?_, ?_, ?_⟩
  · intro c
    unfold keywordScore
    by_cases ht : isSubstr (lowerStr kw) (lowerStr c.text) = true
    · rw [if_pos ht]
      ring_nf
    · rw [if_neg ht, countOcc_eq_zero_of_not_substr _ _ (by simpa using ht)]
  · refine ⟨List.insertionSort (keyGE Prod.fst)
      ((s.chunks.map fun c => (keywordScore kw c, c)).filter fun p => decide (0 < p.1)),
      ?_, List.perm_insertionSort _ _, ?_, ?_⟩
    · unfold search_by_keyword
      rw [if_neg (by simp [hl])]
    · have hs := List.sorted_insertionSort (keyGE Prod.fst)
        ((s.chunks.map fun c => (keywordScore kw c, c)).filter fun p => decide (0 < p.1))
      have : ((List.insertionSort (keyGE Prod.fst)
          ((s.chunks.map fun c => (keywordScore kw c, c)).filter
            fun p => decide (0 < p.1))).map Prod.fst).Pairwise (· ≥ ·) :=
        List.pairwise_map.mpr hs
      exact this.chain'
    · intro v
      exact filter_key_insertionSort Prod.fst v _
  · intro hz
    unfold search_by_keyword
    rw [if_neg (by simp [hl])]
    have : ((s.chunks.map fun c => (keywordScore kw c, c)).filter fun p => decide (0 < p.1)) =
        [] := by
      rw [List.filter_eq_nil_iff]
      intro p hp
      rcases List.mem_map.mp hp with ⟨c, hc, rfl⟩
      simp [hz c hc]
    rw [this]
    simp

/-- Witness for `keyword_search_amended` at a concrete loaded store. -/
theorem keyword_search_amended_w :
    (∀ c : Chunk, keywordScore "apple".toList c =
        3 * countOcc (lowerStr "apple".toList) (lowerStr c.text) +
          (if isSubstr (lowerStr "apple".toList) (lowerStr (c.metadata.source.getD []))
            then 2 else 0)) ∧
    (∃ L : List (Nat × Chunk),
      search_by_keyword storeApple "apple".toList 5 = (L.take 5).map Prod.snd ∧
      L.Perm ((storeApple.chunks.map fun c => (keywordScore "apple".toList c, c)).filter
        fun p => decide (0 < p.1)) ∧
      (L.map Prod.fst).Chain' (· ≥ ·) ∧
      (∀ v : Nat, L.filter (fun p => decide (p.1 = v)) =
        ((storeApple.chunks.map fun c => (keywordScore "apple".toList c, c)).filter
          fun p => decide (0 < p.1)).filter fun p => decide (p.1 = v))) ∧
    ((∀ c ∈ storeApple.chunks, keywordScore "apple".toList c = 0) →
      search_by_keyword storeApple "apple".toList 5 = []) :=
  keyword_search_amended storeApple "apple".toList 5 rfl

/-! ## Similarity search

`FixedVectorStore.similarity_search` sanitises the query (`nan_to_num`),
normalises query and stored rows (a zero-magnitude row is divided by `1.0`),
takes dot products, drops NaN scores, and selects scores with
`argpartition(...)[-m:]` (for `m = min(k, n)`) followed by a descending
`argsort`.

Modelling notes, justified by the claim's hypotheses:
* stored entries are read with `Option.getD 0`, which is exact on finite
  entries (every vector that passed through `add_chunks`/`load` was
  `nan_to_num`-cleaned) and coincides with `nan_to_num` on NaN;
* real arithmetic produces no NaN, so the defensive NaN-score filter keeps
  every index and is omitted;
* the `argpartition`+`argsort` selection is modelled as a full descending
  sort followed by truncation — for pairwise-distinct scores (the claim's
  hypothesis) the two selections return the same list;
* the Python slice `[-m:]` keeps the last `m` elements only for `m ≥ 1`:
  at `m = 0` the index `-0` is `0` and the slice is the whole array, so the
  model truncates to `n` elements when `min k n = 0` and to `min k n`
  otherwise. -/

/-- The query vector after `np.nan_to_num(query_embedding, nan=0.0)`. -/
def cleanQ (q : Vec) : List ℝ := q.map fun x => x.getD 0

/-- Finite values of the stored matrix (see the modelling note above). -/
def realMat (rows : List Vec) : List (List ℝ) := rows.map fun v => v.map fun x => x.getD 0

/-- Row normalisation with the zero-magnitude guard
(`magnitude[magnitude == 0] = 1.0`, then division). -/
noncomputable def normalizeRow (v : List ℝ) : List ℝ :=
  v.map fun x => x / (if Real.sqrt (sumSq v) = 0 then 1 else Real.sqrt (sumSq v))

/-- Dot product of two vectors. -/
noncomputable def dotR (u v : List ℝ) : ℝ := (List.zipWith (· * ·) u v).sum

/-- The cosine-similarity scores `np.dot(db_norm, query_norm.T).flatten()`. -/
noncomputable def simScores (rows : List (List ℝ)) (q : List ℝ) : List ℝ :=
  rows.map fun r => dotR (normalizeRow r) (normalizeRow q)

/-- Model of `FixedVectorStore.similarity_search`: empty result on an
unloaded/empty store or a missing matrix; otherwise the chunks selected by
the `[-min(k, n):]` slice of the ascending order, returned descending with
their scores — the top `min k n` when `min k n ≥ 1`, but all `n` chunks when
`min k n = 0`, because Python's `-0` slice index denotes the whole array. -/
noncomputable def similarity_search (s : Store) (q : Vec) (k : Nat) : List (Chunk × ℝ) :=
  match s.embeddings with
  | none => []
  | some rows =>
    if s.loaded = false ∨ s.chunks = [] then []
    else
      (List.insertionSort (keyGE Prod.snd)
        (s.chunks.zip (simScores (realMat rows) (cleanQ q)))).take
        (if min k (simScores (realMat rows) (cleanQ q)).length = 0 then
          (simScores (realMat rows) (cleanQ q)).length
        else min k (simScores (realMat rows) (cleanQ q)).length)

/-- C5 (amended): on a loaded, aligned, non-empty store whose similarity
scores against the (sanitised) query are pairwise distinct, and for every
`k ≥ 1`, `similarity_search` returns exactly the `min k n` highest-scoring
chunks, each with its true score, in strictly descending score order: the
result has that length, is drawn from the chunk/score pairs of the store,
and every stored pair left out scores strictly below every returned pair.
(At `k = 0` the code instead returns all `n` chunks, its `-0` slice
degenerating to the whole array — see `similarity_search_k0_cex`.) -/
theorem similarity_search_topk (s : Store) (q : Vec) (k : Nat) (rows : List Vec)
    (hk : 1 ≤ k)
    (hemb : s.embeddings = some rows)
    (hal : rows.length = s.chunks.length)
    (hload : s.loaded = true)
    (hne : s.chunks ≠ [])
    (hdist : (simScores (realMat rows) (cleanQ q)).Pairwise (· ≠ ·)) :
    (similarity_search s q k).length = min k s.chunks.length ∧
    ((similarity_search s q k).map Prod.snd).Chain' (· > ·) ∧
    (∀ p ∈ similarity_search s q k, p ∈ s.chunks.zip (simScores (realMat rows) (cleanQ q))) ∧
    (∀ p ∈ s.chunks.zip (simScores (realMat rows) (cleanQ q)),
      p ∉ similarity_search s q k →
      ∀ p' ∈ similarity_search s q k, p.2 < p'.2) := by
  have hsims_len : (simScores (realMat rows) (cleanQ q)).length = s.chunks.length := by
    simp [simScores, realMat, hal]
  have hpairs_len : (s.chunks.zip (simScores (realMat rows) (cleanQ q))).length =
      s.chunks.length := by
    rw [List.length_zip, hsims_len, min_self]
  have hm : ¬ min k (simScores (realMat rows) (cleanQ q)).length = 0 := by
    intro h0
    rcases Nat.min_eq_zero_iff.mp h0 with h | h
    · omega
    · rw [hsims_len] at h
      exact hne (List.length_eq_zero.mp h)
  have hres : similarity_search s q k =
      (List.insertionSort (keyGE Prod.snd)
        (s.chunks.zip (simScores (realMat rows) (cleanQ q)))).take
        (min k (simScores (realMat rows) (cleanQ q)).length) := by
    unfold similarity_search
    rw [hemb]
    dsimp only
    rw [if_neg (by simp [hload, hne]), if_neg hm]
  have hperm : (List.insertionSort (keyGE Prod.snd)
      (s.chunks.zip (simScores (realMat rows) (cleanQ q)))).Perm
      (s.chunks.zip (simScores (realMat rows) (cleanQ q))) :=
    List.perm_insertionSort _ _
  have hsorted : (List.insertionSort (keyGE Prod.snd)
      (s.chunks.zip (simScores (realMat rows) (cleanQ q)))).Pairwise (keyGE Prod.snd) :=
    List.sorted_insertionSort _ _
  have hpd : (s.chunks.zip (simScores (realMat rows) (cleanQ q))).Pairwise
      (fun a b => a.2 ≠ b.2) := by
    have hmap : (s.chunks.zip (simScores (realMat rows) (cleanQ q))).map Prod.snd =
        simScores (realMat rows) (cleanQ q) :=
      List.map_snd_zip _ _ (le_of_eq hsims_len)
    have := hdist
    rw [← hmap] at this
    exact List.pairwise_map.mp this
  have hLd : (List.insertionSort (keyGE Prod.snd)
      (s.chunks.zip (simScores (realMat rows) (cleanQ q)))).Pairwise
      (fun a b => a.2 ≠ b.2) :=
    (hperm.pairwise_iff (fun h => Ne.symm h)).mpr hpd
  have hstrict : (List.insertionSort (keyGE Prod.snd)
      (s.chunks.zip (simScores (realMat rows) (cleanQ q)))).Pairwise
      (fun a b => b.2 < a.2) :=
    (hsorted.and hLd).imp fun h => lt_of_le_of_ne h.1 (Ne.symm h.2)
  refine ⟨?_, ?_, ?_, ?_⟩
  · rw [hres, List.length_take, hperm.length_eq, hpairs_len, hsims_len]
    rw [min_assoc, min_self]
  · rw [hres]
    have htake : ((List.insertionSort (keyGE Prod.snd)
        (s.chunks.zip (simScores (realMat rows) (cleanQ q)))).take
        (min k (simScores (realMat rows) (cleanQ q)).length)).Pairwise
        (fun a b => b.2 < a.2) :=
      List.Pairwise.sublist (List.take_sublist _ _) hstrict
    exact (List.pairwise_map.mpr htake).chain'
  · intro p hp
    rw [hres] at hp
    exact hperm.mem_iff.mp (List.take_subset _ _ hp)
  · intro p hp hnotin p' hp'
    rw [hres] at hnotin hp'
    have hpL : p ∈ List.insertionSort (keyGE Prod.snd)
        (s.chunks.zip (simScores (realMat rows) (cleanQ q))) := hperm.mem_iff.mpr hp
    have hsplit := List.take_append_drop (min k (simScores (realMat rows) (cleanQ q)).length)
      (List.insertionSort (keyGE Prod.snd)
        (s.chunks.zip (simScores (realMat rows) (cleanQ q))))
    have hdrop : p ∈ (List.insertionSort (keyGE Prod.snd)
        (s.chunks.zip (simScores (realMat rows) (cleanQ q)))).drop
        (min k (simScores (realMat rows) (cleanQ q)).length) := by
      rcases List.mem_append.mp (by rw [hsplit]; exact hpL) with h | h
      · exact absurd h hnotin
      · exact h
    have hle : keyGE Prod.snd p' p := pairwise_take_drop hsorted _ p' hp' p hdrop
    have hne' : p'.2 ≠ p.2 := pairwise_take_drop hLd _ p' hp' p hdrop
    exact lt_of_le_of_ne hle (Ne.symm hne')

/-- Empty metadata dictionary. -/
def emptyMeta : Metadata :=
  { source := none, sectionTitle := none, content_type := none
    chunk_type := none, chunk_id := none, page := none }

/-- Concrete chunks for the similarity-search witness. -/
def chunkA : Chunk := { text := "alpha".toList, metadata := emptyMeta, importance := none }

/-- Second concrete chunk. -/
def chunkB : Chunk := { text := "beta".toList, metadata := emptyMeta, importance := none }

/-- Third concrete chunk. -/
def chunkC : Chunk := { text := "gamma".toList, metadata := emptyMeta, importance := none }

/-- Concrete embedding rows with pairwise distinct scores against `qSim`. -/
noncomputable def rowsSim : List Vec :=
  [[some 1, some 0], [some 0, some 1], [some (-1), some 0]]

/-- Concrete query vector. -/
noncomputable def qSim : Vec := [some 1, some 0]

/-- Concrete loaded, aligned store for the similarity-search witness. -/
noncomputable def storeSim : Store :=
  { chunks := [chunkA, chunkB, chunkC], embeddings := some rowsSim, loaded := true }

theorem simScores_concrete : simScores (realMat rowsSim) (cleanQ qSim) = [1, 0, -1] := by
  norm_num [simScores, realMat, cleanQ, rowsSim, qSim, normalizeRow, dotR,
    sumSq_cons, sumSq_nil, Real.sqrt_one]

/-- C5 counterexample: at `k = 0` on a loaded 3-chunk store the claim
predicts exactly the 0 highest-scoring chunks, i.e. `[]`; the code's
selection slice `[-min(k, n):]` is `[-0:]` — the whole array — so the call
returns all 3 chunks. -/
theorem similarity_search_k0_cex :
    (similarity_search storeSim qSim 0).length = 3 ∧
    similarity_search storeSim qSim 0 ≠ [] := by
  have hlen3 : (simScores (realMat rowsSim) (cleanQ qSim)).length = 3 := by
    rw [simScores_concrete]
    rfl
  have hres : similarity_search storeSim qSim 0 =
      (List.insertionSort (keyGE Prod.snd)
        (storeSim.chunks.zip (simScores (realMat rowsSim) (cleanQ qSim)))).take 3 := by
    unfold similarity_search
    rw [show storeSim.embeddings = some rowsSim from rfl]
    dsimp only
    rw [if_neg (by simp [storeSim]), if_pos (by simp), hlen3]
  have hsort_len : (List.insertionSort (keyGE Prod.snd)
      (storeSim.chunks.zip (simScores (realMat rowsSim) (cleanQ qSim)))).length = 3 := by
    rw [(List.perm_insertionSort _ _).length_eq, List.length_zip, hlen3]
    rfl
  have hlen : (similarity_search storeSim qSim 0).length = 3 := by
    rw [hres, List.length_take, hsort_len, min_self]
  refine ⟨hlen, fun h => ?_⟩
  rw [h] at hlen
  simp at hlen

/-- Witness for `similarity_search_topk` at the concrete 3-chunk store. -/
theorem similarity_search_topk_w :
    (similarity_search storeSim qSim 2).length = min 2 storeSim.chunks.length ∧
    ((similarity_search storeSim qSim 2).map Prod.snd).Chain' (· > ·) ∧
    (∀ p ∈ similarity_search storeSim qSim 2,
      p ∈ storeSim.chunks.zip (simScores (realMat rowsSim) (cleanQ qSim))) ∧
    (∀ p ∈ storeSim.chunks.zip (simScores (realMat rowsSim) (cleanQ qSim)),
      p ∉ similarity_search storeSim qSim 2 →
      ∀ p' ∈ similarity_search storeSim qSim 2, p.2 < p'.2) :=
  similarity_search_topk storeSim qSim 2 rowsSim (by decide) rfl rfl rfl (by decide)
    (by rw [simScores_concrete]; norm_num [List.pairwise_cons])

/-! ## The Retrieval Orchestrator's cross-category filter

Model of the result-combination part of
`AccurateRAGSystem.search_relevant_chunks`: merge the similarity and keyword
result lists, deduplicate by exact chunk text (empty text skipped, first
occurrence wins), filter by the question-type/content-type branch chain, and
return the first 5 survivors. -/

/-- The category literal `"general"`. -/
def strGeneral : Str := "general".toList

/-- The category literal `"borrowing"`. -/
def strBorrowing : Str := "borrowing".toList

/-- The category literal `"membership"`. -/
def strMembership : Str := "membership".toList

/-- The category literal `"fines"`. -/
def strFines : Str := "fines".toList

/-- The category literal `"plagiarism"`. -/
def strPlagiarism : Str := "plagiarism".toList

/-- The category literal `"academic_integrity"`. -/
def strAcadInt : Str := "academic_integrity".toList

/-- The category literal `"referencing"`. -/
def strReferencing : Str := "referencing".toList

/-- The category literal `"eresources"`. -/
def strEresources : Str := "eresources".toList

/-- The category literal `"hours"`. -/
def strHours : Str := "hours".toList

/-- The chunk's `content_type` metadata, defaulting to `'general'`. -/
def contentTypeOf (c : Chunk) : Str := c.metadata.content_type.getD strGeneral

/-- The `elif` branch chain of `search_relevant_chunks` deciding whether a
chunk of content type `ct` is kept for a question of type `qt`. -/
def typeAllowed (qt ct : Str) : Bool :=
  if qt = strBorrowing ∧ (ct = strBorrowing ∨ ct = strMembership) then true
  else if qt = strFines ∧ (ct = strFines ∨ ct = strBorrowing) then true
  else if qt = strPlagiarism ∧ (ct = strAcadInt ∨ ct = strReferencing) then true
  else if qt = strReferencing ∧ (ct = strReferencing ∨ ct = strAcadInt) then true
  else if qt = strEresources ∧ (ct = strEresources ∨ ct = strGeneral) then true
  else if qt = strHours ∧ ct = strHours then true
  else decide (ct = qt ∨ ct = strGeneral)

/-- The fixed cross-category allowance table realised by the branch chain:
the pairs a question type accepts beyond its own type and `'general'`. -/
def crossAllow (qt ct : Str) : Bool :=
  decide ((qt = strBorrowing ∧ ct = strMembership) ∨
    (qt = strFines ∧ ct = strBorrowing) ∨
    (qt = strPlagiarism ∧ (ct = strAcadInt ∨ ct = strReferencing)) ∨
    (qt = strReferencing ∧ ct = strAcadInt))

/-- Deduplication by exact chunk text (`seen_texts`), empty text skipped. -/
def dedupByText : List Chunk → List Str → List Chunk
  | [], _ => []
  | c :: cs, seen =>
    if c.text ≠ [] ∧ c.text ∉ seen then c :: dedupByText cs (c.text :: seen)
    else dedupByText cs seen

/-- Merge, deduplicate, filter by question type, truncate to 5: the pure part
of `search_relevant_chunks` downstream of the two searches. -/
def searchRelevantPost (vectorResults keywordResults : List Chunk) (qt : Str) : List Chunk :=
  ((dedupByText (vectorResults ++ keywordResults) []).filter
    fun c => typeAllowed qt (contentTypeOf c)).take 5

theorem typeAllowed_iff (qt ct : Str) :
    typeAllowed qt ct = true ↔
      (ct = qt ∨ ct = strGeneral ∨ crossAllow qt ct = true) := by
  unfold typeAllowed
  split_ifs with h1 h2 h3 h4 h5 h6
  · obtain ⟨hq, hc⟩ := h1
    subst hq
    rcases hc with hc | hc <;> subst hc <;> decide
  · obtain ⟨hq, hc⟩ := h2
    subst hq
    rcases hc with hc | hc <;> subst hc <;> decide
  · obtain ⟨hq, hc⟩ := h3
    subst hq
    rcases hc with hc | hc <;> subst hc <;> decide
  · obtain ⟨hq, hc⟩ := h4
    subst hq
    rcases hc with hc | hc <;> subst hc <;> decide
  · obtain ⟨hq, hc⟩ := h5
    subst hq
    rcases hc with hc | hc <;> subst hc <;> decide
  · obtain ⟨hq, hc⟩ := h6
    subst hq
    subst hc
    decide
  · simp only [decide_eq_true_eq]
    constructor
    · rintro (h | h)
      · exact Or.inl h
      · exact Or.inr (Or.inl h)
    · rintro (h | h | h)
      · exact Or.inl h
      · exact Or.inr h
      · rw [crossAllow, decide_eq_true_eq] at h
        rcases h with ⟨hq, hc⟩ | ⟨hq, hc⟩ | ⟨hq, hc⟩ | ⟨hq, hc⟩
        · exact absurd ⟨hq, Or.inr hc⟩ h1
        · exact absurd ⟨hq, Or.inr hc⟩ h2
        · exact absurd ⟨hq, hc⟩ h3
        · exact absurd ⟨hq, Or.inr hc⟩ h4

/-- C7: the orchestrator keeps a merged chunk iff its content type matches
the question's category, or is `'general'`, or the fixed cross-category
allowance applies; that table contains borrowing→membership,
fines→borrowing and referencing→academic_integrity; and a question of type
`'borrowing'` never returns a chunk whose content type is `'hours'`. -/
theorem cross_category_filter (qt : Str) (merged : List Chunk) (c : Chunk) :
    (c ∈ merged.filter (fun x => typeAllowed qt (contentTypeOf x)) ↔
      c ∈ merged ∧ (contentTypeOf c = qt ∨ contentTypeOf c = strGeneral ∨
        crossAllow qt (contentTypeOf c) = true)) ∧
    crossAllow strBorrowing strMembership = true ∧
    crossAllow strFines strBorrowing = true ∧
    crossAllow strReferencing strAcadInt = true ∧
    (∀ vr kr : List Chunk, ∀ x ∈ searchRelevantPost vr kr strBorrowing,
      contentTypeOf x ≠ strHours) := by
  refine ⟨?_, by decide, by decide, by decide, ?_⟩
  · rw [List.mem_filter, typeAllowed_iff]
  · intro vr kr x hx
    unfold searchRelevantPost at hx
    have hx' := List.take_subset _ _ hx
    have hkeep := (List.mem_filter.mp hx').2
    rw [typeAllowed_iff] at hkeep
    rcases hkeep with h | h | h
    · intro hh; rw [hh] at h; exact absurd h (by decide)
    · intro hh; rw [hh] at h; exact absurd h (by decide)
    · intro hh; rw [hh] at h; exact absurd h (by decide)

/-- A chunk tagged `'borrowing'` for the orchestrator witness. -/
def chunkBorrow : Chunk :=
  { text := "borrow rules".toList
    metadata :=
      { source := none, sectionTitle := none, content_type := some strBorrowing
        chunk_type := none, chunk_id := none, page := none }
    importance := none }

/-- Witness for `cross_category_filter` at a concrete merged list. -/
theorem cross_category_filter_w :
    chunkBorrow ∈ searchRelevantPost [chunkBorrow] [] strBorrowing ∧
    contentTypeOf chunkBorrow ≠ strHours :=
  ⟨by decide, (cross_category_filter strBorrowing [] chunkBorrow).2.2.2.2 [chunkBorrow] []
    chunkBorrow (by decide)⟩

/-! ## The Text Segmenter (`AccuratePDFIngestor`)

`create_accurate_chunks` splits each extracted section's content into
paragraphs (`_split_into_paragraphs`), discards paragraphs shorter than 30
characters, and builds one chunk per surviving paragraph, with metadata
`source`, `section`, `chunk_id` (source + running chunk count),
`page` and `content_type` (from `_classify_content`), plus an
`importance` score (from `_calculate_importance`, exact rationals standing
in for Python floats). -/

/-- An extracted section record `{title, content, source, page}`. -/
structure DocSection where
  title : Str
  content : Str
  source : Str
  page : Nat

/-- Python's `str.strip()`: drop leading and trailing whitespace. -/
def stripStr (s : Str) : Str :=
  ((s.dropWhile Char.isWhitespace).reverse.dropWhile Char.isWhitespace).reverse

/-- Python's `' '.join(...)` on a list of strings. -/
def joinSp (xs : List Str) : Str := List.intercalate " ".toList xs

/-- Whether the segment accumulated so far (held reversed) ends in a
sentence terminator `.`, `!` or `?`. -/
def sentBreakHead (cur : Str) : Bool :=
  match cur with
  | p :: _ => p = '.' ∨ p = '!' ∨ p = '?'
  | [] => false

/-- Scanner for `re.split(r'(?<=[.!?])\s+', text)`: cut at every maximal
whitespace run directly preceded by `.`, `!` or `?`.  `cur` holds the
current segment reversed, fuel is one unit per remaining character. -/
def splitSentencesFuel : Nat → Str → Str → List Str
  | 0, s, cur => [cur.reverse ++ s]
  | f + 1, s, cur =>
    match s with
    | [] => [cur.reverse]
    | c :: rest =>
      if c.isWhitespace && sentBreakHead cur then
        cur.reverse :: splitSentencesFuel f (rest.dropWhile Char.isWhitespace) []
      else splitSentencesFuel f rest (c :: cur)

/-- The sentence split of `_split_into_paragraphs`. -/
def splitSentences (s : Str) : List Str := splitSentencesFuel s.length s []

/-- Python's `s.endswith((':', ';'))`. -/
def endsColonSemi (s : Str) : Bool :=
  match s.getLast? with
  | some c => c = ':' ∨ c = ';'
  | none => false

/-- The accumulation loop of `_split_into_paragraphs`: skip blank sentences,
flush the current paragraph when the joined text exceeds 100 characters or
the sentence ends with `:`/`;`, and flush the leftover at the end. -/
def paraLoop : List Str → List Str → List Str
  | [], cur => if cur.isEmpty then [] else [joinSp cur]
  | sent :: rest, cur =>
    if (stripStr sent).isEmpty then paraLoop rest cur
    else
      if 100 < (joinSp (cur ++ [sent])).length ∨ endsColonSemi (stripStr sent) then
        joinSp (cur ++ [sent]) :: paraLoop rest []
      else paraLoop rest (cur ++ [sent])

/-- Model of `AccuratePDFIngestor._split_into_paragraphs`. -/
def splitIntoParagraphs (text : Str) : List Str := paraLoop (splitSentences text) []

/-- Whether any of the given lowercase keywords occurs in the text. -/
def containsAny (ws : List Str) (t : Str) : Bool := ws.any fun w => isSubstr w t

/-- Model of `AccuratePDFIngestor._classify_content`: first matching keyword
family wins, else `'general'`. -/
def classifyContent (text : Str) : Str :=
  if containsAny ["fine".toList, "overdue".toList, "penalty".toList, "charge".toList]
      (lowerStr text) then strFines
  else if containsAny ["borrow".toList, "loan".toList, "renew".toList, "return".toList]
      (lowerStr text) then strBorrowing
  else if containsAny ["plagiarism".toList, "turnitin".toList, "citation".toList]
      (lowerStr text) then strAcadInt
  else if containsAny ["hour".toList, "open".toList, "close".toList, "schedule".toList]
      (lowerStr text) then strHours
  else if containsAny ["access".toList, "myloft".toList, "e-resource".toList, "database".toList]
      (lowerStr text) then strEresources
  else if containsAny ["staff".toList, "student".toList, "category".toList, "maximum".toList]
      (lowerStr text) then strMembership
  else if containsAny ["apa".toList, "reference".toList, "citation".toList, "format".toList]
      (lowerStr text) then strReferencing
  else strGeneral

/-- The `library_keywords` list from `AccuratePDFIngestor.__init__`. -/
def libraryKeywords : List Str :=
  ["borrow".toList, "return".toList, "renew".toList, "fine".toList, "overdue".toList,
    "loan".toList, "circulation".toList, "plagiarism".toList, "citation".toList,
    "apa".toList, "reference".toList, "hours".toList, "open".toList, "close".toList,
    "staff".toList, "student".toList, "postgraduate".toList, "undergraduate".toList,
    "academic".toList, "book".toList, "journal".toList, "e-resource".toList,
    "myloft".toList, "turnitin".toList, "database".toList, "access".toList,
    "membership".toList]

/-- Model of `AccuratePDFIngestor._calculate_importance` with exact rational
arithmetic in place of Python floats. -/
def calcImportance (text title : Str) : ℚ :=
  let tl := lowerStr text
  let til := lowerStr title
  let s1 := libraryKeywords.foldl
    (fun sc kw =>
      let sc' := if isSubstr kw tl then sc + 1/10 else sc
      if isSubstr kw til then sc' + 1/5 else sc') (1/2)
  let s2 := if containsAny ["step".toList, "procedure".toList, "how to".toList,
      "guide".toList] tl then s1 + 3/10 else s1
  let s3 := if text.any Char.isDigit then s2 + 1/10 else s2
  let s4 := if ("q:".toList.isPrefixOf tl ∨ "what is".toList.isPrefixOf tl ∨
      "definition of".toList.isPrefixOf tl) then s3 + 1/5 else s3
  min s4 1

/-- Decimal representation of a chunk counter. -/
def natToStr (n : Nat) : Str := (Nat.repr n).toList

/-- The chunk built for one surviving paragraph of a section, `count` being
`len(chunks)` at creation time. -/
def mkChunk (sec : DocSection) (count : Nat) (para : Str) : Chunk :=
  { text := para
    metadata :=
      { source := some sec.source
        sectionTitle := some sec.title
        content_type := some (classifyContent para)
        chunk_type := none
        chunk_id := some (sec.source ++ '_' :: natToStr count)
        page := some sec.page }
    importance := some (calcImportance para sec.title) }

/-- The paragraph loop of `create_accurate_chunks`: paragraphs shorter than
30 characters are skipped, the rest are appended as chunks. -/
def paraChunks (sec : DocSection) : List Str → List Chunk → List Chunk
  | [], acc => acc
  | p :: ps, acc =>
    if p.length < 30 then paraChunks sec ps acc
    else paraChunks sec ps (acc ++ [mkChunk sec acc.length p])

/-- Model of `AccuratePDFIngestor.create_accurate_chunks`. -/
def create_accurate_chunks (sections : List DocSection) : List Chunk :=
  sections.foldl (fun acc sec => paraChunks sec (splitIntoParagraphs sec.content) acc) []

theorem paraChunks_min (sec : DocSection) (ps : List Str) :
    ∀ acc : List Chunk, (∀ c ∈ acc, 30 ≤ c.text.length) →
      ∀ c ∈ paraChunks sec ps acc, 30 ≤ c.text.length := by
  induction ps with
  | nil => intro acc hacc c hc; exact hacc c hc
  | cons p ps ih =>
    intro acc hacc c hc
    rw [paraChunks] at hc
    by_cases h : p.length < 30
    · rw [if_pos h] at hc
      exact ih acc hacc c hc
    · rw [if_neg h] at hc
      refine ih _ ?_ c hc
      intro d hd
      rcases List.mem_append.mp hd with hd | hd
      · exact hacc d hd
      · rw [List.mem_singleton.mp hd]
        simpa [mkChunk] using le_of_not_lt h

theorem create_chunks_min_aux (sections : List DocSection) :
    ∀ acc : List Chunk, (∀ c ∈ acc, 30 ≤ c.text.length) →
      ∀ c ∈ sections.foldl
        (fun acc sec => paraChunks sec (splitIntoParagraphs sec.content) acc) acc,
        30 ≤ c.text.length := by
  induction sections with
  | nil => intro acc hacc c hc; exact hacc c (by simpa using hc)
  | cons sec rest ih =>
    intro acc hacc c hc
    rw [List.foldl_cons] at hc
    exact ih _ (paraChunks_min sec _ acc hacc) c hc

/-- C8: every chunk produced by the Segmenter has text of length at least 30
characters; shorter paragraphs are discarded and never become chunks. -/
theorem segmentation_min_length (sections : List DocSection) (c : Chunk)
    (hc : c ∈ create_accurate_chunks sections) : 30 ≤ c.text.length :=
  create_chunks_min_aux sections [] (by intro d hd; cases hd) c hc

/-- A concrete section whose content is one 30-character paragraph. -/
def secW : DocSection :=
  { title := [], content := List.replicate 30 'a', source := "doc.pdf".toList, page := 1 }

theorem create_chunks_secW :
    create_accurate_chunks [secW] = [mkChunk secW 0 (List.replicate 30 'a')] := by
  have hsplit : splitIntoParagraphs (List.replicate 30 'a') = [List.replicate 30 'a'] := by
    decide
  have h30 : ¬ (List.replicate 30 'a').length < 30 := by decide
  show paraChunks secW (splitIntoParagraphs (List.replicate 30 'a')) [] = _
  rw [hsplit, paraChunks, if_neg h30, paraChunks, List.nil_append, List.length_nil]

/-- Witness for `segmentation_min_length` on a concrete section. -/
theorem segmentation_min_length_w :
    mkChunk secW 0 (List.replicate 30 'a') ∈ create_accurate_chunks [secW] ∧
    30 ≤ (mkChunk secW 0 (List.replicate 30 'a')).text.length :=
  ⟨by rw [create_chunks_secW]; exact List.mem_singleton.mpr rfl,
    segmentation_min_length [secW] _ (by rw [create_chunks_secW]; exact List.mem_singleton.mpr rfl)⟩

/-! ## Store statistics (`get_stats`) -/

/-- Python-dict counter update `d[k] = d.get(k, 0) + 1`: the key keeps its
first-insertion position, new keys are appended. -/
def bump : List (Str × Nat) → Str → List (Str × Nat)
  | [], k => [(k, 1)]
  | (k', n) :: rest, k =>
    if k' = k then (k', n + 1) :: rest else (k', n) :: bump rest k

/-- Dictionary lookup with default 0. -/
def lookupCount : List (Str × Nat) → Str → Nat
  | [], _ => 0
  | (k', n) :: rest, k => if k' = k then n else lookupCount rest k

/-- Counts of chunks grouped by a key function, in first-occurrence order. -/
def countsBy (f : Chunk → Str) (cs : List Chunk) : List (Str × Nat) :=
  cs.foldl (fun m c => bump m (f c)) []

/-- The `source` metadata, defaulting to `'unknown'` as in `get_stats`. -/
def sourceOf (c : Chunk) : Str := c.metadata.source.getD "unknown".toList

/-- The `chunk_type` metadata, defaulting to `'paragraph'` as in `get_stats`. -/
def chunkTypeOf (c : Chunk) : Str := c.metadata.chunk_type.getD "paragraph".toList

/-- Model of `np.any(np.isnan(self.embeddings))`. -/
def hasNaN (s : Store) : Bool :=
  match s.embeddings with
  | none => false
  | some m => m.any fun v => v.any fun x => x.isNone

/-- The dictionary returned by `get_stats` (the `embeddings_shape` string is
omitted; on an unloaded store the absent keys are modelled as empty/false). -/
structure Stats where
  total_chunks : Nat
  sources : List (Str × Nat)
  chunk_types : List (Str × Nat)
  loaded : Bool
  has_nan : Bool
deriving DecidableEq

/-- Model of `FixedVectorStore.get_stats`. -/
def get_stats (s : Store) : Stats :=
  if s.loaded = false then
    { total_chunks := 0, sources := [], chunk_types := [], loaded := false, has_nan := false }
  else
    { total_chunks := s.chunks.length
      sources := countsBy sourceOf s.chunks
      chunk_types := countsBy chunkTypeOf s.chunks
      loaded := true
      has_nan := hasNaN s }

/-- Modelled from the claim sentence of C9: per-content-type counts, one
count per `content_type` value of the stored chunks' metadata. -/
def contentTypeCountsClaim (cs : List Chunk) : List (Str × Nat) := countsBy contentTypeOf cs

/-- A chunk tagged `content_type = 'fines'` (no `chunk_type` key). -/
def chunkFines : Chunk :=
  { text := "fines info".toList
    metadata :=
      { source := some "doc.pdf".toList, sectionTitle := none, content_type := some strFines
        chunk_type := none, chunk_id := none, page := none }
    importance := none }

/-- A chunk tagged `content_type = 'hours'` (no `chunk_type` key). -/
def chunkHours : Chunk :=
  { text := "hours info".toList
    metadata :=
      { source := some "doc.pdf".toList, sectionTitle := none, content_type := some strHours
        chunk_type := none, chunk_id := none, page := none }
    importance := none }

/-- A loaded store with two chunks of distinct content types. -/
def storeStats : Store :=
  { chunks := [chunkFines, chunkHours], embeddings := none, loaded := true }

/-- C9 counterexample: `get_stats` keys its per-type counts on the
`chunk_type` metadata key, which Segmenter-produced chunks never carry, so
both chunks fall into the `'paragraph'` bucket; the claim's per-content-type
counts would be one `'fines'` and one `'hours'`. -/
theorem get_stats_content_type_cex :
    (get_stats storeStats).chunk_types = [("paragraph".toList, 2)] ∧
    contentTypeCountsClaim storeStats.chunks = [(strFines, 1), (strHours, 1)] ∧
    (get_stats storeStats).chunk_types ≠ contentTypeCountsClaim storeStats.chunks := by
  exact ⟨by decide, by decide, by decide⟩

theorem lookupCount_bump (m : List (Str × Nat)) (k key : Str) :
    lookupCount (bump m k) key = lookupCount m key + (if k = key then 1 else 0) := by
  induction m with
  | nil => by_cases h : k = key <;> simp [bump, lookupCount, h]
  | cons p rest ih =>
    obtain ⟨k', n⟩ := p
    by_cases h1 : k' = k
    · subst h1
      by_cases h2 : k' = key <;> simp [bump, lookupCount, h2]
    · by_cases h2 : k' = key
      · subst h2
        have hk : ¬ k = k' := fun h => h1 h.symm
        simp [bump, lookupCount, h1, hk]
      · simp [bump, lookupCount, h1, h2, ih]

theorem lookupCount_countsBy_aux (f : Chunk → Str) (key : Str) (cs : List Chunk) :
    ∀ m : List (Str × Nat),
      lookupCount (cs.foldl (fun m c => bump m (f c)) m) key =
        lookupCount m key + (cs.filter fun c => decide (f c = key)).length := by
  induction cs with
  | nil => intro m; simp
  | cons c cs ih =>
    intro m
    rw [List.foldl_cons, ih (bump m (f c)), lookupCount_bump]
    by_cases h : f c = key
    · simp [List.filter_cons, h]
      omega
    · simp [List.filter_cons, h]

theorem lookupCount_countsBy (f : Chunk → Str) (key : Str) (cs : List Chunk) :
    lookupCount (countsBy f cs) key = (cs.filter fun c => decide (f c = key)).length := by
  have h := lookupCount_countsBy_aux f key cs []
  simpa [countsBy, lookupCount] using h

/-- C9 (amended): on a loaded store, `get_stats` returns the total chunk
count, per-source counts, per-`chunk_type`-metadata counts (defaulting to
`'paragraph'` when the key is absent — not per-`content_type` counts), and a
flag that is true exactly when some stored vector entry is NaN. -/
theorem get_stats_amended (s : Store) (hl : s.loaded = true) :
    (get_stats s).total_chunks = s.chunks.length ∧
    (get_stats s).loaded = true ∧
    (∀ key : Str, lookupCount (get_stats s).sources key =
      (s.chunks.filter fun c => decide (sourceOf c = key)).length) ∧
    (∀ key : Str, lookupCount (get_stats s).chunk_types key =
      (s.chunks.filter fun c => decide (chunkTypeOf c = key)).length) ∧
    ((get_stats s).has_nan = true ↔
      ∃ m, s.embeddings = some m ∧ ∃ v ∈ m, ∃ x ∈ v, x = none) := by
  have hg : get_stats s =
      { total_chunks := s.chunks.length
        sources := countsBy sourceOf s.chunks
        chunk_types := countsBy chunkTypeOf s.chunks
        loaded := true
        has_nan := hasNaN s } := by
    unfold get_stats
    rw [if_neg (by simp [hl])]
  refine ⟨by rw [hg], by rw [hg], ?_, ?_, ?_⟩
  · intro key
    rw [hg]
    exact lookupCount_countsBy sourceOf key s.chunks
  · intro key
    rw [hg]
    exact lookupCount_countsBy chunkTypeOf key s.chunks
  · rw [hg]
    show hasNaN s = true ↔ _
    unfold hasNaN
    cases he : s.embeddings with
    | none => simp
    | some m => simp [List.any_eq_true, Option.isNone_iff_eq_none]

/-- Witness for `get_stats_amended` at a concrete loaded store. -/
theorem get_stats_amended_w :
    (get_stats storeApple).total_chunks = storeApple.chunks.length ∧
    (get_stats storeApple).loaded = true ∧
    (∀ key : Str, lookupCount (get_stats storeApple).sources key =
      (storeApple.chunks.filter fun c => decide (sourceOf c = key)).length) ∧
    (∀ key : Str, lookupCount (get_stats storeApple).chunk_types key =
      (storeApple.chunks.filter fun c => decide (chunkTypeOf c = key)).length) ∧
    ((get_stats storeApple).has_nan = true ↔
      ∃ m, storeApple.embeddings = some m ∧ ∃ v ∈ m, ∃ x ∈ v, x = none) :=
  get_stats_amended storeApple rfl



end LibAI
